import Mathlib

/-!
# Verification of the semantic-code-edit engine

A shallow embedding of the core edit-resolution/validation engine of
`semantic-code-edit-mcp` (Rust).  Strings are modelled as `List Char`;
byte positions from the Rust code are modelled as character offsets,
except in the UTF-8 boundary section, which models positions at the
byte level via `Char.utf8Size`.  External collaborators (tree-sitter
parsing, the `diffy` diff library, the file system) are abstracted as
explicit parameters; everything else is translated from the source
files under `src/`.
-/

namespace SemanticEdit

/-- Shorthand: the character list of a string literal. -/
def chars (s : String) : List Char := s.data

/-- `occursIn pat s` decides whether `pat` occurs as a contiguous
substring of `s` (used only to state properties of reports). -/
def occursIn (pat : List Char) : List Char → Bool
  | [] => pat.isEmpty
  | c :: rest => pat.isPrefixOf (c :: rest) || occursIn pat rest

/-- Models Rust `str::lines` splitting: split at newline characters,
an optional final newline does not produce a trailing empty line, and
a trailing carriage return on a line is stripped (`\r\n`). -/
def splitNlAux (cur : List Char) : List Char → List (List Char)
  | [] => [cur.reverse]
  | c :: rest =>
    if c = '\n' then cur.reverse :: splitNlAux [] rest
    else splitNlAux (c :: cur) rest

/-- Strip one trailing carriage return, as Rust `str::lines` does. -/
def stripCr (l : List Char) : List Char :=
  if l.getLast? = some '\r' then l.dropLast else l

/-- Models Rust `str::lines` on a character list. -/
def linesOf (s : List Char) : List (List Char) :=
  match s with
  | [] => []
  | _ =>
    let parts := splitNlAux [] s
    let parts := if parts.getLast? = some [] then parts.dropLast else parts
    parts.map stripCr

/-- Models Rust `str::match_indices`: the leftmost, non-overlapping
occurrences of `pat` in `s`, in source order, each paired with the
matched text (which is always `pat` for literal patterns).  A greedy
left-to-right scan: a candidate start position is kept when it is not
covered by the previously kept match. -/
def matchIndices (s pat : List Char) : List (Nat × List Char) :=
  if pat.isEmpty then (List.range (s.length + 1)).map (fun i => (i, ([] : List Char)))
  else
    let starts := (List.range s.length).filter (fun i => pat.isPrefixOf (s.drop i))
    ((starts.foldl
        (fun (acc : List Nat × Nat) i =>
          if acc.2 ≤ i then (acc.1 ++ [i], i + pat.length) else acc)
        ([], 0)).1).map (fun i => (i, pat))

/-- Drop the final newline character if present
(`if cleaned_diff.ends_with('\n') { cleaned_diff.pop(); }`). -/
def popTrailingNewline (s : List Char) : List Char :=
  if s.getLast? = some '\n' then s.dropLast else s

/-- Rust `format!("{n:>4}")`: decimal rendering right-aligned to width 4. -/
def padLeft4 (n : Nat) : List Char :=
  let s := chars (toString n)
  List.replicate (4 - s.length) ' ' ++ s

/-- Rust `str::trim` on a character list (whitespace at both ends). -/
def trimChars (s : List Char) : List Char :=
  (s.dropWhile Char.isWhitespace).reverse.dropWhile Char.isWhitespace |>.reverse

/-! ## Data model (src/src/selector.rs, src/src/editor/edit_position.rs, src/src/state.rs) -/

/-- `Operation` from src/src/selector.rs. -/
inductive Operation where
  | InsertBefore
  | InsertAfter
  | InsertAfterNode
  | ReplaceRange
  | ReplaceExact
  | ReplaceNode
deriving DecidableEq, Repr

/-- `Operation::as_str` from src/src/selector.rs. -/
def Operation.as_str : Operation → List Char
  | .InsertBefore => chars "insert before"
  | .InsertAfter => chars "insert after"
  | .InsertAfterNode => chars "insert after node"
  | .ReplaceRange => chars "replace range"
  | .ReplaceExact => chars "replace exact"
  | .ReplaceNode => chars "replace node"

/-- `Selector` from src/src/selector.rs (`end` is a Lean keyword, hence
the field name `endText`). -/
structure Selector where
  operation : Operation
  anchor : List Char
  endText : Option (List Char)
deriving DecidableEq, Repr

/-- Rust `Vec::join("\n")` for error lists. -/
def joinNl : List (List Char) → List Char
  | [] => []
  | [e] => e
  | e :: rest => e ++ '\n' :: joinNl rest

/-- `Selector::validate` from src/src/selector.rs: all violations are
collected and joined with newlines. -/
def Selector.validate (s : Selector) : Except (List Char) Unit :=
  let errors : List (List Char) :=
    (if (trimChars s.anchor).isEmpty then [chars "- `anchor` cannot be empty"] else []) ++
    (match s.operation with
     | .InsertBefore | .InsertAfter | .InsertAfterNode =>
       if s.endText.isSome then
         [chars "- End is not relevant for insert operations. Did you mean to `replace`?"]
       else []
     | .ReplaceRange =>
       if s.endText.isNone then [chars "- End is required for range replacement"] else []
     | .ReplaceExact | .ReplaceNode =>
       if s.endText.isSome then
         [chars "- `end` is not relevant for `replace_exact` operations. Did you intend to `replace_range`?"]
       else [])
  if errors.isEmpty then .ok ()
  else .error (joinNl errors)

/-- `EditPosition` from src/src/editor/edit_position.rs. -/
structure EditPosition where
  start_byte : Nat
  end_byte : Option Nat
deriving DecidableEq, Repr

/-- `StagedOperation` from src/src/state.rs.  The file path and the
language name are opaque identifiers here. -/
structure StagedOperation where
  selector : Selector
  content : List Char
  file_path : List Char
  language_name : List Char
  edit_position : Option EditPosition
deriving DecidableEq, Repr

/-- `StagedOperation::retarget` from src/src/state.rs: replaces the
selector, leaving every other field alone. -/
def StagedOperation.retarget (op : StagedOperation) (selector : Selector) : StagedOperation :=
  { op with selector := selector }

/-! ## External collaborators, abstracted

Tree-sitter parsing and the per-language capability surface
(src/src/languages/) are external to the core; they are modelled as
explicit parameters.  Parsing is deterministic for a fixed language, so
a parse tree is identified with the text it was parsed from. -/

/-- Outcome of the semantic/context layer for one text
(`ContextValidator::validate_tree` followed by `format_errors`). -/
structure CtxRes where
  is_valid : Bool
  formatted : List Char
deriving DecidableEq, Repr

/-- A language capability surface: `collect_errors` yields the
0-indexed error line numbers of the parse tree of a text
(src/src/languages/traits.rs), and `validation_query`, when the
language defines one, yields the semantic-layer outcome for a text. -/
structure LangModel where
  collect_errors : List Char → List Nat
  validation_query : Option (List Char → CtxRes)

/-- The two tree-sitter node lookups used by `select_ast_node`
(`named_descendant_for_byte_range` / `descendant_for_byte_range`),
abstracted as functions from a byte range to the byte range of the
resolved node. -/
structure TreeModel where
  named_descendant_for_byte_range : Nat → Nat → Option (Nat × Nat)
  descendant_for_byte_range : Nat → Nat → Option (Nat × Nat)

/-- `Editor` from src/src/editor.rs.  The parse tree and rope are
functions of `source_code` and are not separate fields; the language
reference is carried as its name, with capabilities passed as a
`LangModel` argument. -/
structure Editor where
  content : List Char
  selector : Selector
  file_path : List Char
  language_name : List Char
  source_code : List Char
  staged_edit : Option EditPosition
deriving DecidableEq, Repr

/-- `Edit` (src/src/editor/edit.rs is absent from the snapshot).
Modelled from the spec: an Edit is one concrete candidate — an
`EditPosition` plus the content string to splice — constructed by the
resolver, immutable except through the builder copies `with_content`
and `with_end_byte`.  The fields and builders are exactly those used
by src/src/editor/edit_iterator.rs. -/
structure Edit where
  position : EditPosition
  content : List Char
deriving DecidableEq, Repr

/-- `Edit::new(editor, position)`: the content comes from the editor. -/
def Edit.new (editor : Editor) (position : EditPosition) : Edit :=
  { position := position, content := editor.content }

/-- Builder copy `with_content`. -/
def Edit.with_content (e : Edit) (content : List Char) : Edit :=
  { e with content := content }

/-- Builder copy `with_end_byte`. -/
def Edit.with_end_byte (e : Edit) (end_byte : Nat) : Edit :=
  { e with position := { e.position with end_byte := some end_byte } }

/-! ## Candidate resolution (src/src/editor/edit_iterator.rs) -/

/-- `EditIterator::build_edit`: an insertion Edit at `start_byte`. -/
def build_edit (editor : Editor) (start_byte : Nat) : Edit :=
  Edit.new editor { start_byte := start_byte, end_byte := none }

/-- `EditIterator::add_spacing_variations`: after the original edits,
push — for each original edit in order — a space-padded copy and then a
newline-padded copy.  With `before = true` the padding is appended to
the content, otherwise prepended.  (The source tests `before` inside
the per-edit loop; the test is loop-invariant and is hoisted here.) -/
def add_spacing_variations (edits : List Edit) (before : Bool) : List Edit :=
  if before then
    edits ++ edits.flatMap (fun e =>
      [e.with_content (e.content ++ [' ']), e.with_content (e.content ++ ['\n'])])
  else
    edits ++ edits.flatMap (fun e =>
      [e.with_content (' ' :: e.content), e.with_content ('\n' :: e.content)])

/-- `from_positions` from src/src/editor/edit_iterator.rs. -/
def from_positions (source_code anchor : List Char) :
    Except (List Char) (List (Nat × List Char)) :=
  let fp := matchIndices source_code anchor
  if fp.isEmpty then
    .error (chars "From text \"" ++ anchor ++ chars "\" not found in source")
  else .ok fp

/-- `to_positions` from src/src/editor/edit_iterator.rs. -/
def to_positions (source_code endText : List Char) :
    Except (List Char) (List (Nat × List Char)) :=
  let tp := matchIndices source_code endText
  if tp.isEmpty then
    .error (chars "To text \"" ++ endText ++ chars "\" not found in source")
  else .ok tp

/-- `EditIterator::find_insert_positions`. -/
def find_insert_positions (editor : Editor) (anchor : List Char) (before : Bool)
    (source_code : List Char) : Except (List Char) (List Edit) :=
  let edits := (matchIndices source_code anchor).map (fun p =>
    build_edit editor (if before then p.1 else p.1 + anchor.length))
  if edits.isEmpty then
    .error (chars "Anchor text \"" ++ anchor ++ chars "\" not found in source")
  else .ok (add_spacing_variations edits before)

/-- `EditIterator::find_exact_matches`. -/
def find_exact_matches (editor : Editor) (exact_text source_code : List Char) :
    Except (List Char) (List Edit) :=
  let positions := (matchIndices source_code exact_text).map (fun p =>
    (build_edit editor p.1).with_end_byte (p.1 + p.2.length))
  if positions.isEmpty then
    .error (chars "Exact text \"" ++ exact_text ++ chars "\" not found in source")
  else .ok positions

/-- `EditIterator::find_explicit_range`: every anchor occurrence crossed
with every end occurrence, keeping pairs with
`to_byte >= from_byte + anchor.len()` (the `?` propagation of the two
position lookups is written as explicit matches). -/
def find_explicit_range (editor : Editor) (anchor endText source_code : List Char) :
    Except (List Char) (List Edit) :=
  match from_positions source_code anchor with
  | .error e => .error e
  | .ok froms =>
    match to_positions source_code endText with
    | .error e => .error e
    | .ok tos =>
      let ranges := froms.flatMap (fun f =>
        tos.filterMap (fun t =>
          if f.1 + anchor.length ≤ t.1 then
            some ((build_edit editor f.1).with_end_byte (t.1 + endText.length))
          else none))
      if ranges.isEmpty then
        .error (chars "No valid range found from \"" ++ anchor ++ chars "\" to \"" ++
          endText ++ chars "\"")
      else .ok ranges

/-- `EditIterator::find_range_matches`. -/
def find_range_matches (editor : Editor) (anchor : List Char) (endText : Option (List Char))
    (source_code : List Char) : Except (List Char) (List Edit) :=
  match endText with
  | some e => find_explicit_range editor anchor e source_code
  | none => .error (chars "end is required for range replacement")

/-- `EditIterator::select_ast_node`: the anchor's first trimmed line is
the lookup key; each occurrence resolves to the smallest covering named
node, falling back to any covering node; unresolvable occurrences are
silently skipped. -/
def select_ast_node (editor : Editor) (anchor source_code : List Char) (tree : TreeModel) :
    Except (List Char) (List Edit) := do
  let anchor := ((linesOf (trimChars anchor)).headD [])
  let froms ← from_positions source_code (trimChars anchor)
  .ok (froms.filterMap (fun f =>
    let from_end := f.1 + f.2.length
    ((tree.named_descendant_for_byte_range f.1 from_end).orElse
        (fun _ => tree.descendant_for_byte_range f.1 from_end)).map
      (fun node => (build_edit editor node.1).with_end_byte node.2)))

/-- `EditIterator::find_after_ast_insert_positions`. -/
def find_after_ast_insert_positions (editor : Editor) (anchor source_code : List Char)
    (tree : TreeModel) : Except (List Char) (List Edit) := do
  let nodes ← select_ast_node editor anchor source_code tree
  let edits := nodes.filterMap (fun e =>
    e.position.end_byte.map (fun start_byte => build_edit editor start_byte))
  .ok (add_spacing_variations edits false)

/-- `EditIterator::find_edits`: validate the selector, then dispatch on
the operation. -/
def find_edits (editor : Editor) (tree : TreeModel) : Except (List Char) (List Edit) := do
  Selector.validate editor.selector
  match editor.selector.operation with
  | .InsertBefore => find_insert_positions editor editor.selector.anchor true editor.source_code
  | .InsertAfter => find_insert_positions editor editor.selector.anchor false editor.source_code
  | .InsertAfterNode =>
    find_after_ast_insert_positions editor editor.selector.anchor editor.source_code tree
  | .ReplaceRange =>
    find_range_matches editor editor.selector.anchor editor.selector.endText editor.source_code
  | .ReplaceExact => find_exact_matches editor editor.selector.anchor editor.source_code
  | .ReplaceNode => select_ast_node editor editor.selector.anchor editor.source_code tree

/-- The mutable state of `EditIterator` (src/src/editor/edit_iterator.rs):
the borrowed pinned position, the memoized candidate vector, and the
cursor. -/
structure IterState where
  staged_edit : Option EditPosition
  edits : Option (List Edit)
  current_index : Nat
deriving DecidableEq, Repr

/-- `EditIterator::new`: the pinned position is taken from the editor,
candidates are not yet computed. -/
def IterState.new (editor : Editor) : IterState :=
  { staged_edit := editor.staged_edit, edits := none, current_index := 0 }

/-- `EditIterator::next`: a pinned position is returned first and only
once; afterwards candidates are computed lazily (once) and yielded in
order.  Returns the yielded item (if any) together with the successor
state.  The `EditIterator in invalid state` branch of the source is
unreachable here because `edits` is always populated on the paths that
read it. -/
def IterState.next (editor : Editor) (tree : TreeModel) (st : IterState) :
    Option (Except (List Char) Edit) × IterState :=
  match st.staged_edit with
  | some edit_position =>
    (some (.ok (Edit.new editor edit_position)), { st with staged_edit := none })
  | none =>
    match st.edits with
    | none =>
      match find_edits editor tree with
      | .error e => (some (.error e), st)
      | .ok es =>
        let st := { st with edits := some es }
        if h : st.current_index < es.length then
          (some (.ok (es.get ⟨st.current_index, h⟩)),
            { st with current_index := st.current_index + 1 })
        else (none, st)
    | some es =>
      if h : st.current_index < es.length then
        (some (.ok (es.get ⟨st.current_index, h⟩)),
          { st with current_index := st.current_index + 1 })
      else (none, st)

/-! ## Validator (src/src/editor/validator.rs)

`BTreeSet` is used by the source only through `contains`, so it is
modelled by list membership. -/

/-- `Validator::validate`: the syntax layer collects error line numbers;
if any exist, a context report is rendered from the merged windows
`line.saturating_sub(3)..line + 3` (a half-open Rust range) and the
semantic layer is skipped; otherwise the language's validation query,
when present, decides the outcome. -/
def Validator.validate (lang : LangModel) (content : List Char) : Option (List Char) :=
  let errors := lang.collect_errors content
  if errors.isEmpty then
    match lang.validation_query with
    | some query =>
      let validation_result := query content
      if !validation_result.is_valid then some validation_result.formatted else none
    | none => none
  else
    let lines_with_errors := errors
    let context_lines := lines_with_errors.flatMap
      (fun line => List.range' (line - 3) ((line + 3) - (line - 3)))
    some (chars "===SYNTAX ERRORS===\n" ++
      (((linesOf content).enum.filter (fun p => context_lines.contains p.1)).flatMap
        (fun p =>
          let display_index := p.1 + 1
          if lines_with_errors.contains p.1 then
            padLeft4 display_index ++ chars " ->⎸" ++ p.2 ++ ['\n']
          else
            padLeft4 display_index ++ chars "   ⎸" ++ p.2 ++ ['\n'])))

/-! ## Edit application and the resolve/apply/validate loop
(src/src/editor.rs; `Edit::apply`/`is_valid`/`message`/`output` are in
the absent src/src/editor/edit.rs and are modelled from the spec). -/

/-- Modelled from the spec: `Edit::apply` (src/src/editor/edit.rs is
absent) splices `content` into the source buffer at `position`,
replacing `[start_byte, end_byte)` when `end_byte` is present and
inserting at `start_byte` otherwise. -/
def spliceAt (source : List Char) (position : EditPosition) (content : List Char) :
    List Char :=
  source.take position.start_byte ++ content ++
    source.drop (position.end_byte.getD position.start_byte)

/-- An Edit after `apply()` and `is_valid()`: the candidate output and
the retained validation detail (`none` = valid). -/
structure AppliedEdit where
  edit : Edit
  output : List Char
  failure : Option (List Char)
deriving DecidableEq, Repr

/-- Modelled from the spec: `Edit::apply` followed by `Edit::is_valid`
(src/src/editor/edit.rs is absent) — apply splices the content, then
validity re-parses the output and delegates to the Validator, retaining
the validation detail for `message()`. -/
def Edit.applyAndValidate (lang : LangModel) (source : List Char) (e : Edit) : AppliedEdit :=
  let output := spliceAt source e.position e.content
  { edit := e, output := output, failure := Validator.validate lang output }

/-- Modelled from the spec: `Edit::message` (src/src/editor/edit.rs is
absent) — the retained validation detail for an invalid edit, a fixed
success note otherwise. -/
def AppliedEdit.message (ae : AppliedEdit) : List Char :=
  ae.failure.getD (chars "edit applied")

/-- The subset of `SemanticEditError` (src/src/error.rs) reachable from
the modelled operations. -/
inductive SemanticEditError where
  | noValidEditLocations
  | operationNotStaged
deriving DecidableEq, Repr

/-- The `thiserror` display strings from src/src/error.rs. -/
def SemanticEditError.message : SemanticEditError → List Char
  | .noValidEditLocations => chars "no valid edit locations found for selector"
  | .operationNotStaged => chars "no operation is currently staged"

/-- `Editor::prevalidate` (src/src/editor.rs): validate the unmodified
tree and wrap any report in the pre-existing-syntax-error message. -/
def Editor.prevalidate (lang : LangModel) (editor : Editor) : Option (List Char) :=
  (Validator.validate lang editor.source_code).map (fun errors =>
    chars "Syntax error found prior to edit, not attempting.\nSuggestion: Pause and show your human collaborator this context:\n\n"
      ++ errors)

/-- The sequence of items the `EditIterator` yields to the `for` loop in
`Editor::edit`: the pinned position first (if any), then either the
single resolution failure or the resolved candidates in order.  (The
source iterator would repeat a resolution failure if polled again, but
the loop always stops at the first failure item.) -/
def Editor.editCandidates (tree : TreeModel) (editor : Editor) :
    List (Except (List Char) Edit) :=
  (match editor.staged_edit with
   | some p => [.ok (Edit.new editor p)]
   | none => []) ++
  (match find_edits editor tree with
   | .error m => [.error m]
   | .ok es => es.map .ok)

/-- The `for edit in self.edit_iterator()` loop body of `Editor::edit`,
with the accumulated `failed_edits`. -/
def editLoop (lang : LangModel) (source : List Char) :
    List (Except (List Char) Edit) → List AppliedEdit →
    Except SemanticEditError (List Char × Option (List Char))
  | [], failed_edits =>
    match failed_edits.head? with
    | some ae => .ok (ae.message, none)
    | none => .error .noValidEditLocations
  | .error message :: _, _ => .ok (message, none)
  | .ok e :: rest, failed_edits =>
    let ae := Edit.applyAndValidate lang source e
    match ae.failure with
    | none => .ok (ae.message, some ae.output)
    | some _ => editLoop lang source rest (failed_edits ++ [ae])

/-- `Editor::edit` (src/src/editor.rs): pre-check, then first-valid
candidate wins; a resolution failure surfaces as a message; exhaustion
returns the first candidate's failure message, or the distinct
`NoValidEditLocations` error when there was no candidate at all. -/
def Editor.edit (lang : LangModel) (tree : TreeModel) (editor : Editor) :
    Except SemanticEditError (List Char × Option (List Char)) :=
  match Editor.prevalidate lang editor with
  | some prevalidation_failure => .ok (prevalidation_failure, none)
  | none => editLoop lang editor.source_code (Editor.editCandidates tree editor) []

/-- `impl From<Editor> for StagedOperation` (src/src/editor.rs lines
215–233): every field is moved across unchanged; `edit_position` is the
editor's `staged_edit` field. -/
def StagedOperation.fromEditor (editor : Editor) : StagedOperation :=
  { selector := editor.selector
    content := editor.content
    file_path := editor.file_path
    language_name := editor.language_name
    edit_position := editor.staged_edit }

/-- The `diffy` library (external): `DiffOptions::create_patch` produces
a patch whose hunks carry 0-indexed original-side line ranges, and
`PatchFormatter` renders it as lines of text. -/
structure Hunk where
  old_start : Nat
  old_len : Nat
deriving DecidableEq, Repr

/-- The external diff collaborator as a pair of functions. -/
structure DiffyModel where
  create_patch : List Char → List Char → List Hunk
  fmt_patch : List Hunk → List (List Char)

/-- `DiffGenerator::calculate_changed_lines`
(src/src/editor/diff_generator.rs): the number of distinct 0-indexed
original-side line numbers inside any hunk's old range, counting only
those below `content_line_count`. -/
def DiffGenerator.calculate_changed_lines (patch : List Hunk) (content_line_count : Nat) :
    Nat :=
  (((patch.flatMap (fun h => List.range' h.old_start h.old_len)).filter
      (fun line_num => line_num < content_line_count)).dedup).length

/-- `DiffGenerator::generate_diff` (src/src/editor/diff_generator.rs),
with the externally produced patch and formatted diff lines as inputs:
the efficiency header appears only when the content fragment has more
than 10 lines, the tip when the percentage is below 30; diff header
lines are stripped from the body and the final newline is dropped. -/
def DiffGenerator.generate_diff (diff_patch : List Hunk) (diff_lines : List (List Char))
    (content_patch : List Char) : List Char :=
  let content_line_count := (linesOf content_patch).length
  let header : List Char :=
    if content_line_count > 10 then
      let changed_lines := DiffGenerator.calculate_changed_lines diff_patch content_line_count
      let changed_fraction := changed_lines * 100 / content_line_count
      (chars "Edit efficiency: " ++ chars (toString changed_fraction) ++ chars "%\n") ++
      (if changed_fraction < 30 then
        chars "💡 TIP: For focused changes like this, you might try targeted insert/replace operations for easier review and iteration\n"
      else []) ++ ['\n']
    else []
  let body := chars "===DIFF===\n" ++
    ((diff_lines.filter (fun line =>
        !((chars "---").isPrefixOf line || (chars "+++").isPrefixOf line ||
          (chars "@@").isPrefixOf line))).flatMap (fun line => line ++ ['\n']))
  popTrailingNewline (header ++ body)

/-- `Editor::diff` (src/src/editor.rs). -/
def Editor.diff (diffy : DiffyModel) (editor : Editor) (output : List Char) : List Char :=
  let patch := diffy.create_patch editor.source_code output
  DiffGenerator.generate_diff patch (diffy.fmt_patch patch) editor.content

/-- `Editor::preview` (src/src/editor.rs lines 170–182): on success the
message is the `STAGED:` header plus the diff, and the staged snapshot
is `StagedOperation::from(self)`; on failure the failure message and no
snapshot. -/
def Editor.preview (lang : LangModel) (tree : TreeModel) (diffy : DiffyModel)
    (editor : Editor) : Except SemanticEditError (List Char × Option StagedOperation) :=
  match Editor.edit lang tree editor with
  | .error e => .error e
  | .ok (message, output) =>
    match output with
    | some out =>
      .ok (chars "STAGED: " ++ editor.selector.operation.as_str ++ chars "\n\n" ++
        Editor.diff diffy editor out, some (StagedOperation.fromEditor editor))
    | none => .ok (message, none)

/-- `Editor::commit` (src/src/editor.rs): the same loop; on success the
message embeds the operation name and the diff, and the output plus the
file path are returned for the caller to persist. -/
def Editor.commit (lang : LangModel) (tree : TreeModel) (diffy : DiffyModel)
    (editor : Editor) :
    Except SemanticEditError (List Char × Option (List Char) × List Char) :=
  match Editor.edit lang tree editor with
  | .error e => .error e
  | .ok (message, output) =>
    match output with
    | some out =>
      .ok (editor.selector.operation.as_str ++ chars " operation result:\n" ++ message ++
        chars "\n\n" ++ Editor.diff diffy editor out, some out, editor.file_path)
    | none => .ok (message, none, editor.file_path)

/-- `Editor::from_staged_operation` (src/src/editor.rs): rebuild an
editor from a staged snapshot; reading the file from disk is modelled
by the explicit `source_code` argument. -/
def Editor.from_staged_operation (op : StagedOperation) (source_code : List Char) : Editor :=
  { content := op.content
    selector := op.selector
    file_path := op.file_path
    language_name := op.language_name
    source_code := source_code
    staged_edit := op.edit_position }

/-- `RetargetStaged::execute` (src/src/tools/retarget_staged.rs): the
session's staged operation is first mutated in place
(`modify_staged_operation` + `StagedOperation::retarget`), then the
retargeted operation is previewed; a successful preview replaces the
staged snapshot, a failed preview leaves the store as it is — that is,
holding the already-retargeted operation.  The session store is the
`Option StagedOperation` state; reading the target file is the
`source_code` argument. -/
def RetargetStaged.execute (lang : LangModel) (tree : TreeModel) (diffy : DiffyModel)
    (source_code : List Char) (state : Option StagedOperation) (selector : Selector) :
    Except SemanticEditError (List Char) × Option StagedOperation :=
  match state with
  | none => (.error .operationNotStaged, none)
  | some op =>
    let staged_operation := op.retarget selector
    let state := some staged_operation
    let editor := Editor.from_staged_operation staged_operation source_code
    match Editor.preview lang tree diffy editor with
    | .error e => (.error e, state)
    | .ok (message, some staged) => (.ok message, some staged)
    | .ok (message, none) => (.ok message, state)

/-! ## UTF-8 boundary handling (src/src/validation/context_validator.rs)

This section models text at the byte level: a string is a list of
characters, each occupying `Char.utf8Size` bytes, and positions are
byte offsets as in the Rust code. -/

/-- The UTF-8 byte length of a character list (Rust `str::len`). -/
def utf8Len (s : List Char) : Nat := (s.map Char.utf8Size).sum

/-- Rust `str::is_char_boundary`: `pos` is a sum of the byte widths of
a prefix of `s` (0 and the total length included); positions beyond the
end are not boundaries. -/
def isCharBoundary : List Char → Nat → Bool
  | [], pos => pos = 0
  | c :: rest, pos =>
    pos = 0 || (c.utf8Size ≤ pos && isCharBoundary rest (pos - c.utf8Size))

/-- The backward search loop of `ValidationResult::find_utf8_boundary`:
`while pos > 0 && !is_char_boundary(pos) { pos -= 1 }`. -/
def searchBoundaryBack (s : List Char) : Nat → Nat
  | 0 => 0
  | pos + 1 => if isCharBoundary s (pos + 1) then pos + 1 else searchBoundaryBack s pos

/-- The forward search loop of `ValidationResult::find_utf8_boundary`:
`while pos < bytes.len() && !is_char_boundary(pos) { pos += 1 }`; the
fuel argument is `utf8Len s - pos`, exactly the number of steps the
loop can still take. -/
def searchBoundaryFwd (s : List Char) : Nat → Nat → Nat
  | 0, pos => pos
  | fuel + 1, pos =>
    if pos < utf8Len s && !isCharBoundary s pos then searchBoundaryFwd s fuel (pos + 1)
    else pos

/-- `ValidationResult::find_utf8_boundary`: clamp to the byte length,
then walk backward (for a start offset) or forward (for an end offset)
to the nearest character boundary. -/
def find_utf8_boundary (s : List Char) (byte_pos : Nat) (search_backward : Bool) : Nat :=
  let pos := min byte_pos (utf8Len s)
  if search_backward then searchBoundaryBack s pos
  else searchBoundaryFwd s (utf8Len s - pos) pos

/-- Drop the characters occupying the first `n` bytes (callers pass a
character-boundary `n`). -/
def dropBytes : List Char → Nat → List Char
  | s, 0 => s
  | [], _ => []
  | c :: rest, n + 1 => dropBytes rest (n + 1 - c.utf8Size)

/-- Take the characters occupying the first `n` bytes (callers pass a
character-boundary `n`). -/
def takeBytes : List Char → Nat → List Char
  | _, 0 => []
  | [], _ => []
  | c :: rest, n + 1 => c :: takeBytes rest (n + 1 - c.utf8Size)

/-- Rust `str::get(start..end)`: the slice when both offsets are
character boundaries and ordered, `none` otherwise. -/
def strGet (s : List Char) (start stop : Nat) : Option (List Char) :=
  if isCharBoundary s start && isCharBoundary s stop && decide (start ≤ stop) then
    some (takeBytes (dropBytes s start) (stop - start))
  else none

/-- The snippet-extraction block inside
`ValidationResult::format_errors`: ranges past the end of the source
give a fixed placeholder; otherwise a direct slice is attempted, and on
a boundary fault the offsets are widened (start backward, end forward)
before slicing again. -/
def snippetFor (source_code : List Char) (range_start range_end : Nat) : List Char :=
  if range_end ≤ utf8Len source_code then
    match strGet source_code range_start range_end with
    | some slice => slice
    | none =>
      let start := find_utf8_boundary source_code range_start true
      let stop := find_utf8_boundary source_code (min range_end (utf8Len source_code)) false
      (strGet source_code start stop).getD (chars "<invalid UTF-8 range>")
  else chars "<range out of bounds>"

/-- `ContextViolation` (src/src/validation/context_validator.rs); the
node is represented by the byte range of its nearest enclosing node
(`node.parent().unwrap_or(node).byte_range()`), which is all
`format_errors` reads from it. -/
structure ContextViolation where
  parent_range : Nat × Nat
  message : List Char
  suggestion : List Char
deriving DecidableEq, Repr

/-- `ValidationResult` (src/src/validation/context_validator.rs). -/
structure ValidationResult where
  is_valid : Bool
  violations : List ContextViolation
  source_code : List Char
deriving DecidableEq, Repr

/-- `ValidationResult::format_errors`: one block per violation — the
message, the safely sliced source of the nearest enclosing node, and
the suggestion. -/
def ValidationResult.format_errors (vr : ValidationResult) : List Char :=
  if vr.is_valid then chars "✅ All validations passed"
  else
    chars "❌ Invalid placement detected:\n\n" ++
    vr.violations.flatMap (fun violation =>
      chars "• " ++ violation.message ++ chars ":\n" ++
      snippetFor vr.source_code violation.parent_range.1 violation.parent_range.2 ++
      chars "\n\n" ++ chars "  💡 Suggestion: " ++ violation.suggestion ++ ['\n'])

/-! ## Specification-side definitions

These follow the wording of the specification (not the source) and are
used only to state claims and compare them against the source-derived
definitions above. -/

/-- Spec wording: the winning candidate of the resolve/apply/validate
loop — the first candidate, in iterator order, whose applied result
validates. -/
def spec_winning_edit (lang : LangModel) (tree : TreeModel) (editor : Editor) : Option Edit :=
  ((Editor.editCandidates tree editor).filterMap Except.toOption).find?
    (fun e => (Edit.applyAndValidate lang editor.source_code e).failure.isNone)

/-- Spec wording (claim C7): line `i` lies inside the merged ±3-line
context windows around the error lines. -/
def spec_in_context_window (errors : List Nat) (i : Nat) : Bool :=
  errors.any (fun line => line - 3 ≤ i && i ≤ line + 3)

/-- Spec wording (claim C10): the snippet obtained by widening both
offsets outward to the nearest valid boundary (the start backward, the
end forward, offsets past the end clamped to the length) and slicing
there. -/
def spec_widened_slice (source_code : List Char) (range_start range_end : Nat) :
    Option (List Char) :=
  strGet source_code (find_utf8_boundary source_code range_start true)
    (find_utf8_boundary source_code (min range_end (utf8Len source_code)) false)

/-! ## Shared concrete instances for witnesses and counterexamples -/

/-- A language with no syntax errors and no validation query
(the `plain` language of src/src/languages/plain.rs). -/
def langPlain : LangModel :=
  { collect_errors := fun _ => [], validation_query := none }

/-- A language whose parser reports an error on line 0 for every text. -/
def langBroken : LangModel :=
  { collect_errors := fun _ => [0], validation_query := none }

/-- A tree with no resolvable descendants. -/
def tmNone : TreeModel :=
  { named_descendant_for_byte_range := fun _ _ => none
    descendant_for_byte_range := fun _ _ => none }

/-- A diff collaborator producing an empty patch. -/
def diffyEmpty : DiffyModel :=
  { create_patch := fun _ _ => [], fmt_patch := fun _ => [] }

/-- Concrete editor: insert `"c"` after the anchor `"a"` in source
`"ab"`, nothing pinned. -/
def edInsertAfter : Editor :=
  { content := chars "c"
    selector := { operation := .InsertAfter, anchor := chars "a", endText := none }
    file_path := chars "f.txt"
    language_name := chars "plain"
    source_code := chars "ab"
    staged_edit := none }

/-! ## Loop lemmas for `Editor::edit` -/

/-- If every candidate before `c` fails validation and `c` validates,
the loop returns `c`'s result immediately, whatever follows. -/
theorem editLoop_first_valid (lang : LangModel) (source : List Char) :
    ∀ (pre : List Edit) (c : Edit) (post : List (Except (List Char) Edit))
      (acc : List AppliedEdit),
      (∀ e ∈ pre, (Edit.applyAndValidate lang source e).failure ≠ none) →
      (Edit.applyAndValidate lang source c).failure = none →
      editLoop lang source (pre.map Except.ok ++ Except.ok c :: post) acc =
        .ok ((Edit.applyAndValidate lang source c).message,
          some (Edit.applyAndValidate lang source c).output) := by
  intro pre
  induction pre with
  | nil =>
    intro c post acc _ hc
    simp only [List.map_nil, List.nil_append, editLoop, hc]
  | cons p rest ih =>
    intro c post acc hpre hc
    have hp : (Edit.applyAndValidate lang source p).failure ≠ none :=
      hpre p (List.mem_cons_self p rest)
    obtain ⟨m, hm⟩ := Option.ne_none_iff_exists'.mp hp
    simp only [List.map_cons, List.cons_append, editLoop, hm]
    exact ih c post _ (fun e he => hpre e (List.mem_cons_of_mem p he)) hc

/-- If every candidate fails validation, the loop result is determined
by the first accumulated failure (or the first candidate's failure). -/
theorem editLoop_all_invalid (lang : LangModel) (source : List Char) :
    ∀ (cands : List Edit) (acc : List AppliedEdit),
      (∀ e ∈ cands, (Edit.applyAndValidate lang source e).failure ≠ none) →
      editLoop lang source (cands.map Except.ok) acc =
        (match (acc ++ cands.map (Edit.applyAndValidate lang source)).head? with
         | some ae => .ok (ae.message, none)
         | none => .error .noValidEditLocations) := by
  intro cands
  induction cands with
  | nil => intro acc _; simp [editLoop]
  | cons c rest ih =>
    intro acc hall
    have hc : (Edit.applyAndValidate lang source c).failure ≠ none :=
      hall c (List.mem_cons_self c rest)
    obtain ⟨m, hm⟩ := Option.ne_none_iff_exists'.mp hc
    simp only [List.map_cons, editLoop, hm]
    rw [ih (acc ++ [Edit.applyAndValidate lang source c])
      (fun e he => hall e (List.mem_cons_of_mem c he))]
    simp

/-! ## Claim C1 -/

/-- C1, counterexample.  A fresh successful preview (no pinned
position) yields a `StagedOperation` whose `edit_position` is `none`,
while the winning candidate's position is `⟨1, none⟩`: the staged
snapshot does not capture the winning position. -/
theorem C1_counterexample :
    Editor.preview langPlain tmNone diffyEmpty edInsertAfter =
      .ok (chars "STAGED: insert after\n\n===DIFF===",
        some (StagedOperation.fromEditor edInsertAfter)) ∧
    (StagedOperation.fromEditor edInsertAfter).edit_position = none ∧
    spec_winning_edit langPlain tmNone edInsertAfter =
      some { position := { start_byte := 1, end_byte := none }, content := chars "c" } ∧
    (none : Option EditPosition) ≠ some { start_byte := 1, end_byte := none } := by
  refine ⟨rfl, rfl, rfl, ?_⟩
  decide

/-- C1, amended: on a successful preview the returned
`StagedOperation` is `StagedOperation::from(editor)`, whose
`edit_position` is the editor's construction-time `staged_edit` field
unchanged (`none` for a fresh preview) — the winning candidate's
position is not recorded.  A later commit built from this snapshot on
the same unmodified source therefore re-runs the very same
resolve/apply/validate loop, so its output is byte-identical to the
preview's. -/
theorem C1_staged_position_passthrough (lang : LangModel) (tree : TreeModel)
    (diffy : DiffyModel) (editor : Editor) (message : List Char) (so : StagedOperation)
    (h : Editor.preview lang tree diffy editor = .ok (message, some so)) :
    so = StagedOperation.fromEditor editor ∧
    so.edit_position = editor.staged_edit ∧
    Editor.edit lang tree (Editor.from_staged_operation so editor.source_code) =
      Editor.edit lang tree editor := by
  have hso : so = StagedOperation.fromEditor editor := by
    unfold Editor.preview at h
    cases he : Editor.edit lang tree editor with
    | error e => rw [he] at h; exact absurd h (by simp)
    | ok r =>
      rw [he] at h
      obtain ⟨m, out⟩ := r
      cases out with
      | none => exact absurd h (by simp)
      | some o =>
        simp only [Except.ok.injEq, Prod.mk.injEq, Option.some.injEq] at h
        exact h.2.symm
  subst hso
  refine ⟨rfl, rfl, ?_⟩
  rfl

/-- C1, witness for the amended theorem at the concrete instance. -/
theorem C1_witness :
    (StagedOperation.fromEditor edInsertAfter).edit_position = edInsertAfter.staged_edit :=
  (C1_staged_position_passthrough langPlain tmNone diffyEmpty edInsertAfter
    (chars "STAGED: insert after\n\n===DIFF===") (StagedOperation.fromEditor edInsertAfter)
    rfl).2.1

/-! ## Claim C2 -/

/-- C2: whenever the unmodified source already has syntax-error lines,
every `preview()` — whatever the selector, tree, or diff collaborator —
returns a message opening with the pre-existing-syntax-error wording
followed by the syntax report, and stages nothing; the candidate
pipeline is never consulted. -/
theorem C2_preexisting_syntax_error (lang : LangModel) (tree : TreeModel)
    (diffy : DiffyModel) (editor : Editor)
    (h : lang.collect_errors editor.source_code ≠ []) :
    ∃ context, Editor.preview lang tree diffy editor =
      .ok (chars "Syntax error found prior to edit, not attempting.\nSuggestion: Pause and show your human collaborator this context:\n\n"
        ++ context, none) ∧
      (∃ rest, context = chars "===SYNTAX ERRORS===\n" ++ rest) := by
  cases herr : lang.collect_errors editor.source_code with
  | nil => exact absurd herr h
  | cons a as =>
    have hval : ∃ rest, Validator.validate lang editor.source_code =
        some (chars "===SYNTAX ERRORS===\n" ++ rest) := by
      unfold Validator.validate
      rw [herr]
      exact ⟨_, rfl⟩
    obtain ⟨rest, hv⟩ := hval
    refine ⟨chars "===SYNTAX ERRORS===\n" ++ rest, ?_, rest, rfl⟩
    unfold Editor.preview Editor.edit Editor.prevalidate
    rw [hv]
    rfl

/-- C2, witness at a concrete broken source. -/
theorem C2_witness :
    langBroken.collect_errors edInsertAfter.source_code ≠ [] ∧
    ∃ context, Editor.preview langBroken tmNone diffyEmpty edInsertAfter =
      .ok (chars "Syntax error found prior to edit, not attempting.\nSuggestion: Pause and show your human collaborator this context:\n\n"
        ++ context, none) ∧
      (∃ rest, context = chars "===SYNTAX ERRORS===\n" ++ rest) :=
  ⟨by decide,
    C2_preexisting_syntax_error langBroken tmNone diffyEmpty edInsertAfter (by decide)⟩

/-! ## Claim C3 -/

/-- A language accepting exactly the text `"ab"`, so that every applied
candidate output fails validation. -/
def langOnlyAb : LangModel :=
  { collect_errors := fun s => if s = chars "ab" then [] else [0]
    validation_query := none }

/-- Concrete editor: replace the node containing `"a"` in `"ab"` — with
no resolvable tree node the resolver yields an empty candidate list. -/
def edReplaceNode : Editor :=
  { content := chars "c"
    selector := { operation := .ReplaceNode, anchor := chars "a", endText := none }
    file_path := chars "f.txt"
    language_name := chars "plain"
    source_code := chars "ab"
    staged_edit := none }

/-- C3: given a source passing the pre-check, (1) the first candidate
in iterator order whose applied result validates is returned
immediately, independently of everything after it; (2) when every
candidate applies but fails validation, the loop returns the first
candidate's own failure message with no output; (3) when the resolver
produced zero candidates and no position was pinned, the distinct
`NoValidEditLocations` error (`"no valid edit locations found for
selector"`) is returned. -/
theorem C3_edit_loop_contract (lang : LangModel) (tree : TreeModel) (editor : Editor) :
    (∀ (pre : List Edit) (c : Edit) (post : List (Except (List Char) Edit)),
      Editor.prevalidate lang editor = none →
      Editor.editCandidates tree editor = pre.map Except.ok ++ Except.ok c :: post →
      (∀ e ∈ pre, (Edit.applyAndValidate lang editor.source_code e).failure ≠ none) →
      (Edit.applyAndValidate lang editor.source_code c).failure = none →
      Editor.edit lang tree editor =
        .ok ((Edit.applyAndValidate lang editor.source_code c).message,
          some (spliceAt editor.source_code c.position c.content))) ∧
    (∀ (c : Edit) (rest : List Edit),
      Editor.prevalidate lang editor = none →
      Editor.editCandidates tree editor = (c :: rest).map Except.ok →
      (∀ e ∈ c :: rest, (Edit.applyAndValidate lang editor.source_code e).failure ≠ none) →
      ∃ m, (Edit.applyAndValidate lang editor.source_code c).failure = some m ∧
        Editor.edit lang tree editor = .ok (m, none)) ∧
    (Editor.prevalidate lang editor = none →
      editor.staged_edit = none →
      find_edits editor tree = .ok [] →
      Editor.edit lang tree editor = .error .noValidEditLocations ∧
      SemanticEditError.message .noValidEditLocations =
        chars "no valid edit locations found for selector") := by
  refine ⟨?_, ?_, ?_⟩
  · intro pre c post hpre hcand hfail hvalid
    unfold Editor.edit
    rw [hpre, hcand]
    exact editLoop_first_valid lang editor.source_code pre c post [] hfail hvalid
  · intro c rest hpre hcand hall
    obtain ⟨m, hm⟩ := Option.ne_none_iff_exists'.mp (hall c (List.mem_cons_self c rest))
    refine ⟨m, hm, ?_⟩
    unfold Editor.edit
    rw [hpre, hcand, editLoop_all_invalid lang editor.source_code (c :: rest) [] hall]
    simp [AppliedEdit.message, hm]
  · intro hpre hstaged hfind
    refine ⟨?_, rfl⟩
    unfold Editor.edit
    rw [hpre]
    unfold Editor.editCandidates
    rw [hstaged, hfind]
    rfl

/-- C3, witness: the three parts of the contract at concrete inputs —
a winning first candidate on `"ab"`, an all-candidates-fail run under
`langOnlyAb`, and an empty resolution for an unresolvable
`ReplaceNode`. -/
theorem C3_witness :
    Editor.edit langPlain tmNone edInsertAfter =
      .ok (chars "edit applied", some (chars "acb")) ∧
    (∃ m, (Edit.applyAndValidate langOnlyAb (chars "ab")
        { position := { start_byte := 1, end_byte := none }, content := chars "c" }).failure
        = some m ∧
      Editor.edit langOnlyAb tmNone edInsertAfter = .ok (m, none)) ∧
    Editor.edit langPlain tmNone edReplaceNode = .error .noValidEditLocations := by
  refine ⟨?_, ?_, ?_⟩
  · have h := (C3_edit_loop_contract langPlain tmNone edInsertAfter).1
      [] { position := { start_byte := 1, end_byte := none }, content := chars "c" }
      [.ok { position := { start_byte := 1, end_byte := none }, content := chars " c" },
       .ok { position := { start_byte := 1, end_byte := none }, content := chars "\nc" }]
      rfl rfl (by simp) rfl
    exact h
  · exact (C3_edit_loop_contract langOnlyAb tmNone edInsertAfter).2.1
      { position := { start_byte := 1, end_byte := none }, content := chars "c" }
      [{ position := { start_byte := 1, end_byte := none }, content := chars " c" },
       { position := { start_byte := 1, end_byte := none }, content := chars "\nc" }]
      rfl rfl (by decide)
  · exact ((C3_edit_loop_contract langPlain tmNone edReplaceNode).2.2 rfl rfl rfl).1

/-! ## Claim C4 -/

/-- The concrete editor of `edInsertAfter` with a pinned position. -/
def edPinned : Editor :=
  { edInsertAfter with staged_edit := some { start_byte := 0, end_byte := none } }

/-- C4, counterexample.  With a pinned position the iterator yields the
pinned Edit first — but the very next poll yields a candidate produced
by the resolution algorithm, so the pinned Edit is not the sole
candidate. -/
theorem C4_counterexample :
    (IterState.next edPinned tmNone (IterState.new edPinned)).1 =
      some (.ok { position := { start_byte := 0, end_byte := none }, content := chars "c" }) ∧
    (IterState.next edPinned tmNone
        (IterState.next edPinned tmNone (IterState.new edPinned)).2).1 =
      some (.ok { position := { start_byte := 1, end_byte := none }, content := chars "c" }) ∧
    (some (Except.ok { position := { start_byte := 1, end_byte := none }, content := chars "c" } : Except (List Char) Edit)) ≠ none := by
  exact ⟨rfl, rfl, by simp⟩

/-- C4, amended: a pinned `EditPosition` bypasses the resolution
algorithm and is yielded as the first candidate, exactly once (the
successor state has no pinned position left); subsequent polls fall
back to the lazily resolved candidates rather than stopping. -/
theorem C4_pinned_yields_first_once (editor : Editor) (tree : TreeModel) (st : IterState)
    (p : EditPosition) (h : st.staged_edit = some p) :
    IterState.next editor tree st =
      (some (.ok (Edit.new editor p)), { st with staged_edit := none }) := by
  unfold IterState.next
  rw [h]

/-- C4, witness at the concrete pinned editor. -/
theorem C4_witness :
    IterState.next edPinned tmNone (IterState.new edPinned) =
      (some (.ok (Edit.new edPinned { start_byte := 0, end_byte := none })),
        { (IterState.new edPinned) with staged_edit := none }) :=
  C4_pinned_yields_first_once edPinned tmNone (IterState.new edPinned)
    { start_byte := 0, end_byte := none } rfl

/-! ## Claim C5 -/

/-- Length of a flat-mapped list of two-element blocks. -/
theorem pairFlat_length {α β : Type} (l : List α) (f g : α → β) :
    (l.flatMap (fun e => [f e, g e])).length = 2 * l.length := by
  induction l with
  | nil => simp
  | cons a t ih =>
    simp only [List.flatMap_cons, List.cons_append, List.nil_append, List.length_cons, ih]
    omega

/-- Even indices of a flat-mapped list of two-element blocks. -/
theorem pairFlat_get_even {α β : Type} (l : List α) (f g : α → β) (i : Nat) :
    (l.flatMap (fun e => [f e, g e]))[2 * i]? = (l[i]?).map f := by
  induction l generalizing i with
  | nil => simp
  | cons a t ih =>
    cases i with
    | zero => simp
    | succ j =>
      have h2 : 2 * (j + 1) = 2 * j + 1 + 1 := by omega
      simp only [List.flatMap_cons, h2, List.cons_append, List.getElem?_cons_succ,
        List.nil_append, ih]

/-- Odd indices of a flat-mapped list of two-element blocks. -/
theorem pairFlat_get_odd {α β : Type} (l : List α) (f g : α → β) (i : Nat) :
    (l.flatMap (fun e => [f e, g e]))[2 * i + 1]? = (l[i]?).map g := by
  induction l generalizing i with
  | nil => simp
  | cons a t ih =>
    cases i with
    | zero => simp
    | succ j =>
      have h2 : 2 * (j + 1) + 1 = 2 * j + 1 + 1 + 1 := by omega
      simp only [List.flatMap_cons, h2, List.cons_append, List.getElem?_cons_succ,
        List.nil_append, ih]

/-- The `before = false` branch of `add_spacing_variations`. -/
theorem add_spacing_variations_false (edits : List Edit) :
    add_spacing_variations edits false =
      edits ++ edits.flatMap (fun e =>
        [e.with_content (' ' :: e.content), e.with_content ('\n' :: e.content)]) := rfl

/-- The `before = true` branch of `add_spacing_variations`. -/
theorem add_spacing_variations_true (edits : List Edit) :
    add_spacing_variations edits true =
      edits ++ edits.flatMap (fun e =>
        [e.with_content (e.content ++ [' ']), e.with_content (e.content ++ ['\n'])]) := rfl

/-- Concrete editor for the insert-candidate order: insert `"x"` before
the anchor `"a"`, which occurs twice in source `"aa"`. -/
def edInsertBefore : Editor :=
  { content := chars "x"
    selector := { operation := .InsertBefore, anchor := chars "a", endText := none }
    file_path := chars "f.txt"
    language_name := chars "plain"
    source_code := chars "aa"
    staged_edit := none }

/-- C5, counterexample.  For two occurrences of the anchor the claim
mandates the order [base₀, base₁, space₀, space₁, newline₀, newline₁]
with the padding *prefixed* for `InsertBefore`; the code instead
interleaves the variants per occurrence and *suffixes* the padding, so
the produced list differs from the claimed one. -/
theorem C5_counterexample :
    find_insert_positions edInsertBefore (chars "a") true (chars "aa") =
      .ok [{ position := { start_byte := 0, end_byte := none }, content := chars "x" },
        { position := { start_byte := 1, end_byte := none }, content := chars "x" },
        { position := { start_byte := 0, end_byte := none }, content := chars "x " },
        { position := { start_byte := 0, end_byte := none }, content := chars "x\n" },
        { position := { start_byte := 1, end_byte := none }, content := chars "x " },
        { position := { start_byte := 1, end_byte := none }, content := chars "x\n" }] ∧
    find_insert_positions edInsertBefore (chars "a") true (chars "aa") ≠
      .ok [{ position := { start_byte := 0, end_byte := none }, content := chars "x" },
        { position := { start_byte := 1, end_byte := none }, content := chars "x" },
        { position := { start_byte := 0, end_byte := none }, content := chars " x" },
        { position := { start_byte := 1, end_byte := none }, content := chars " x" },
        { position := { start_byte := 0, end_byte := none }, content := chars "\nx" },
        { position := { start_byte := 1, end_byte := none }, content := chars "\nx" }] := by
  constructor
  · rfl
  · intro hc
    rw [show find_insert_positions edInsertBefore (chars "a") true (chars "aa") =
      .ok [{ position := { start_byte := 0, end_byte := none }, content := chars "x" },
        { position := { start_byte := 1, end_byte := none }, content := chars "x" },
        { position := { start_byte := 0, end_byte := none }, content := chars "x " },
        { position := { start_byte := 0, end_byte := none }, content := chars "x\n" },
        { position := { start_byte := 1, end_byte := none }, content := chars "x " },
        { position := { start_byte := 1, end_byte := none }, content := chars "x\n" }] from rfl] at hc
    exact absurd (Except.ok.inj hc) (by decide)

/-- C5, amended: with N ≥ 1 anchor occurrences the candidate list has
length 3N, the first N entries are the literal-position candidates in
source order, and the remaining entries are the padded variants
interleaved per occurrence — for occurrence index `i`, the space-padded
copy sits at index `N + 2i` and the newline-padded copy at `N + 2i + 1`;
for `InsertBefore` the padding is a suffix of the content and for
`InsertAfter` a prefix.  Zero occurrences yield the anchor-not-found
failure. -/
theorem C5_insert_candidate_order (editor : Editor) (anchor : List Char) (before : Bool)
    (source : List Char) :
    (matchIndices source anchor = [] →
      find_insert_positions editor anchor before source =
        .error (chars "Anchor text \"" ++ anchor ++ chars "\" not found in source")) ∧
    (matchIndices source anchor ≠ [] →
      ∃ L, find_insert_positions editor anchor before source = .ok L ∧
        L.length = 3 * (matchIndices source anchor).length ∧
        ∀ i, i < (matchIndices source anchor).length →
          (L[i]? = ((matchIndices source anchor)[i]?).map (fun p =>
            build_edit editor (if before then p.1 else p.1 + anchor.length))) ∧
          (L[(matchIndices source anchor).length + 2 * i]? =
            ((matchIndices source anchor)[i]?).map (fun p =>
              (build_edit editor (if before then p.1 else p.1 + anchor.length)).with_content
                (if before then editor.content ++ [' '] else ' ' :: editor.content))) ∧
          (L[(matchIndices source anchor).length + 2 * i + 1]? =
            ((matchIndices source anchor)[i]?).map (fun p =>
              (build_edit editor (if before then p.1 else p.1 + anchor.length)).with_content
                (if before then editor.content ++ ['\n'] else '\n' :: editor.content)))) := by
  constructor
  · intro hocc
    unfold find_insert_positions
    rw [hocc]
    rfl
  · intro hocc
    obtain ⟨a, t, hocce⟩ : ∃ a t, matchIndices source anchor = a :: t := by
      cases h : matchIndices source anchor with
      | nil => exact absurd h hocc
      | cons a t => exact ⟨a, t, rfl⟩
    rw [hocce]
    have hfind : find_insert_positions editor anchor before source =
        .ok (add_spacing_variations ((a :: t).map (fun p =>
          build_edit editor (if before then p.1 else p.1 + anchor.length))) before) := by
      unfold find_insert_positions
      rw [hocce]
      rfl
    refine ⟨_, hfind, ?_, ?_⟩
    · cases before with
      | false =>
        rw [add_spacing_variations_false, List.length_append, List.length_map,
          pairFlat_length, List.length_map]
        omega
      | true =>
        rw [add_spacing_variations_true, List.length_append, List.length_map,
          pairFlat_length, List.length_map]
        omega
    · intro i hi
      have hlen : ((a :: t).map (fun p : Nat × List Char =>
          build_edit editor (if before then p.1 else p.1 + anchor.length))).length =
          (a :: t).length := List.length_map _ _
      cases before with
      | false =>
        rw [add_spacing_variations_false]
        refine ⟨?_, ?_, ?_⟩
        · rw [List.getElem?_append_left (by rw [hlen]; exact hi), List.getElem?_map]
        · rw [List.getElem?_append_right (by rw [hlen]; omega)]
          rw [hlen, show (a :: t).length + 2 * i - (a :: t).length = 2 * i from by omega]
          rw [pairFlat_get_even, List.getElem?_map, Option.map_map]
          rfl
        · rw [List.getElem?_append_right (by rw [hlen]; omega)]
          rw [hlen,
            show (a :: t).length + 2 * i + 1 - (a :: t).length = 2 * i + 1 from by omega]
          rw [pairFlat_get_odd, List.getElem?_map, Option.map_map]
          rfl
      | true =>
        rw [add_spacing_variations_true]
        refine ⟨?_, ?_, ?_⟩
        · rw [List.getElem?_append_left (by rw [hlen]; exact hi), List.getElem?_map]
        · rw [List.getElem?_append_right (by rw [hlen]; omega)]
          rw [hlen, show (a :: t).length + 2 * i - (a :: t).length = 2 * i from by omega]
          rw [pairFlat_get_even, List.getElem?_map, Option.map_map]
          rfl
        · rw [List.getElem?_append_right (by rw [hlen]; omega)]
          rw [hlen,
            show (a :: t).length + 2 * i + 1 - (a :: t).length = 2 * i + 1 from by omega]
          rw [pairFlat_get_odd, List.getElem?_map, Option.map_map]
          rfl

/-- C5, witness at the two-occurrence instance. -/
theorem C5_witness :
    ∃ L, find_insert_positions edInsertBefore (chars "a") true (chars "aa") = .ok L ∧
      L.length = 3 * (matchIndices (chars "aa") (chars "a")).length ∧
      ∀ i, i < (matchIndices (chars "aa") (chars "a")).length →
        (L[i]? = ((matchIndices (chars "aa") (chars "a"))[i]?).map (fun p =>
          build_edit edInsertBefore (if true then p.1 else p.1 + (chars "a").length))) ∧
        (L[(matchIndices (chars "aa") (chars "a")).length + 2 * i]? =
          ((matchIndices (chars "aa") (chars "a"))[i]?).map (fun p =>
            (build_edit edInsertBefore
                (if true then p.1 else p.1 + (chars "a").length)).with_content
              (if true then edInsertBefore.content ++ [' '] else ' ' :: edInsertBefore.content))) ∧
        (L[(matchIndices (chars "aa") (chars "a")).length + 2 * i + 1]? =
          ((matchIndices (chars "aa") (chars "a"))[i]?).map (fun p =>
            (build_edit edInsertBefore
                (if true then p.1 else p.1 + (chars "a").length)).with_content
              (if true then edInsertBefore.content ++ ['\n'] else '\n' :: edInsertBefore.content))) :=
  (C5_insert_candidate_order edInsertBefore (chars "a") true (chars "aa")).2 (by decide)

/-! ## Claim C6 -/

/-- Reduction of `find_explicit_range` when both position lookups
succeed. -/
theorem find_explicit_range_ok_ok (editor : Editor) (anchor endText source : List Char)
    (froms tos : List (Nat × List Char))
    (h1 : from_positions source anchor = .ok froms)
    (h2 : to_positions source endText = .ok tos) :
    find_explicit_range editor anchor endText source =
      (if (froms.flatMap (fun f => tos.filterMap (fun t =>
          if f.1 + anchor.length ≤ t.1 then
            some ((build_edit editor f.1).with_end_byte (t.1 + endText.length))
          else none))).isEmpty then
        .error (chars "No valid range found from \"" ++ anchor ++ chars "\" to \"" ++
          endText ++ chars "\"")
      else .ok (froms.flatMap (fun f => tos.filterMap (fun t =>
        if f.1 + anchor.length ≤ t.1 then
          some ((build_edit editor f.1).with_end_byte (t.1 + endText.length))
        else none)))) := by
  unfold find_explicit_range
  rw [h1, h2]

/-- C6: `find_explicit_range` fails when either text has no occurrence;
its candidate set is exactly the ordered cross product — one candidate
per (anchor occurrence, end occurrence) pair whose end match starts no
earlier than the anchor match's end, spanning from the anchor match
start to the end match's end; when both texts occur but no pair
satisfies the constraint (in particular, when every end occurrence ends
at or before every anchor occurrence's start), the result is the
`"No valid range found"` failure. -/
theorem C6_replace_range_contract (editor : Editor) (anchor endText source : List Char) :
    (matchIndices source anchor = [] →
      find_explicit_range editor anchor endText source =
        .error (chars "From text \"" ++ anchor ++ chars "\" not found in source")) ∧
    (matchIndices source anchor ≠ [] → matchIndices source endText = [] →
      find_explicit_range editor anchor endText source =
        .error (chars "To text \"" ++ endText ++ chars "\" not found in source")) ∧
    (∀ L, find_explicit_range editor anchor endText source = .ok L →
      ∀ e, e ∈ L ↔ ∃ f ∈ matchIndices source anchor, ∃ t ∈ matchIndices source endText,
        f.1 + anchor.length ≤ t.1 ∧
        e = (build_edit editor f.1).with_end_byte (t.1 + endText.length)) ∧
    (matchIndices source anchor ≠ [] → matchIndices source endText ≠ [] →
      (∀ f ∈ matchIndices source anchor, ∀ t ∈ matchIndices source endText,
        ¬ (f.1 + anchor.length ≤ t.1)) →
      find_explicit_range editor anchor endText source =
        .error (chars "No valid range found from \"" ++ anchor ++ chars "\" to \"" ++
          endText ++ chars "\"")) ∧
    (anchor ≠ [] → matchIndices source anchor ≠ [] → matchIndices source endText ≠ [] →
      (∀ t ∈ matchIndices source endText, ∀ f ∈ matchIndices source anchor,
        t.1 + endText.length ≤ f.1) →
      find_explicit_range editor anchor endText source =
        .error (chars "No valid range found from \"" ++ anchor ++ chars "\" to \"" ++
          endText ++ chars "\"")) := by
  have hfrom : ∀ a t, matchIndices source anchor = a :: t →
      from_positions source anchor = .ok (a :: t) := by
    intro a t h
    unfold from_positions
    rw [h]
    rfl
  have hto : ∀ a t, matchIndices source endText = a :: t →
      to_positions source endText = .ok (a :: t) := by
    intro a t h
    unfold to_positions
    rw [h]
    rfl
  have exists_cons : ∀ (l : List (Nat × List Char)), l ≠ [] → ∃ a t, l = a :: t := by
    intro l hl
    cases l with
    | nil => exact absurd rfl hl
    | cons a t => exact ⟨a, t, rfl⟩
  have key : matchIndices source anchor ≠ [] → matchIndices source endText ≠ [] →
      (∀ f ∈ matchIndices source anchor, ∀ t ∈ matchIndices source endText,
        ¬ (f.1 + anchor.length ≤ t.1)) →
      find_explicit_range editor anchor endText source =
        .error (chars "No valid range found from \"" ++ anchor ++ chars "\" to \"" ++
          endText ++ chars "\"") := by
    intro hfne htne hall
    obtain ⟨fa, ft, hfe⟩ := exists_cons _ hfne
    obtain ⟨ta, tt, hte⟩ := exists_cons _ htne
    rw [hfe] at hall
    rw [hte] at hall
    rw [find_explicit_range_ok_ok editor anchor endText source (fa :: ft) (ta :: tt)
      (hfrom fa ft hfe) (hto ta tt hte)]
    have hr : ((fa :: ft).flatMap (fun f => (ta :: tt).filterMap (fun t =>
        if f.1 + anchor.length ≤ t.1 then
          some ((build_edit editor f.1).with_end_byte (t.1 + endText.length))
        else none))) = [] := by
      rw [List.flatMap_eq_nil_iff]
      intro f hf
      rw [List.filterMap_eq_nil_iff]
      intro t ht
      rw [if_neg (hall f hf t ht)]
    rw [hr]
    rfl
  refine ⟨?_, ?_, ?_, key, ?_⟩
  · intro h
    unfold find_explicit_range from_positions
    rw [h]
    rfl
  · intro hfne hte
    obtain ⟨fa, ft, hfe⟩ := exists_cons _ hfne
    unfold find_explicit_range
    rw [hfrom fa ft hfe]
    unfold to_positions
    rw [hte]
    rfl
  · intro L h e
    obtain ⟨fa, ft, hfe⟩ : ∃ a t, matchIndices source anchor = a :: t := by
      cases hc : matchIndices source anchor with
      | nil =>
        unfold find_explicit_range from_positions at h
        rw [hc] at h
        exact absurd h (by simp)
      | cons a t => exact ⟨a, t, rfl⟩
    obtain ⟨ta, tt, hte⟩ : ∃ a t, matchIndices source endText = a :: t := by
      cases hc : matchIndices source endText with
      | nil =>
        unfold find_explicit_range at h
        rw [hfrom fa ft hfe] at h
        unfold to_positions at h
        rw [hc] at h
        exact absurd h (by simp)
      | cons a t => exact ⟨a, t, rfl⟩
    have hL : L = ((fa :: ft).flatMap (fun f => (ta :: tt).filterMap (fun t =>
        if f.1 + anchor.length ≤ t.1 then
          some ((build_edit editor f.1).with_end_byte (t.1 + endText.length))
        else none))) := by
      rw [find_explicit_range_ok_ok editor anchor endText source (fa :: ft) (ta :: tt)
        (hfrom fa ft hfe) (hto ta tt hte)] at h
      by_cases hemp : ((fa :: ft).flatMap (fun f => (ta :: tt).filterMap (fun t =>
          if f.1 + anchor.length ≤ t.1 then
            some ((build_edit editor f.1).with_end_byte (t.1 + endText.length))
          else none))).isEmpty
      · rw [if_pos hemp] at h
        exact absurd h (by simp)
      · rw [if_neg hemp] at h
        exact (Except.ok.inj h).symm
    rw [hL, hfe, hte]
    simp only [List.mem_flatMap, List.mem_filterMap]
    constructor
    · rintro ⟨f, hf, t, ht, hg⟩
      by_cases hc : f.1 + anchor.length ≤ t.1
      · rw [if_pos hc] at hg
        exact ⟨f, hf, t, ht, hc, (Option.some.inj hg).symm⟩
      · rw [if_neg hc] at hg
        cases hg
    · rintro ⟨f, hf, t, ht, hc, he⟩
      exact ⟨f, hf, t, ht, by rw [if_pos hc, he]⟩
  · intro hanch hfne htne hall
    refine key hfne htne ?_
    intro f hf t ht hc
    have h1 : t.1 + endText.length ≤ f.1 := hall t ht f hf
    have h2 : 0 < anchor.length := List.length_pos.mpr hanch
    omega

/-- C6, witness: in `"BxA"` the only `"B"` ends before the only `"A"`
starts, so range replacement from `"A"` to `"B"` fails with the
no-valid-range message. -/
theorem C6_witness :
    find_explicit_range edInsertAfter (chars "A") (chars "B") (chars "BxA") =
      .error (chars "No valid range found from \"" ++ chars "A" ++ chars "\" to \"" ++
        chars "B" ++ chars "\"") :=
  (C6_replace_range_contract edInsertAfter (chars "A") (chars "B") (chars "BxA")).2.2.2.2
    (by decide) (by decide) (by decide) (by decide)

/-! ## Claim C7 -/

/-- Reduction of `Validator.validate` when errors exist. -/
theorem Validator_validate_cons (lang : LangModel) (content : List Char) (a : Nat)
    (as : List Nat) (h : lang.collect_errors content = a :: as) :
    Validator.validate lang content = some (chars "===SYNTAX ERRORS===\n" ++
      (((linesOf content).enum.filter (fun p => ((a :: as).flatMap
          (fun line => List.range' (line - 3) ((line + 3) - (line - 3)))).contains p.1)).flatMap
        (fun p =>
          if (a :: as).contains p.1 then
            padLeft4 (p.1 + 1) ++ chars " ->⎸" ++ p.2 ++ ['\n']
          else
            padLeft4 (p.1 + 1) ++ chars "   ⎸" ++ p.2 ++ ['\n']))) := by
  unfold Validator.validate
  rw [h]
  rfl

/-- Membership in the merged context-line set of the source equals the
window condition `line.saturating_sub(3) ≤ i < line + 3`. -/
theorem contains_context_window (errors : List Nat) (i : Nat) :
    (errors.flatMap (fun line => List.range' (line - 3) ((line + 3) - (line - 3)))).contains i =
      errors.any (fun line => decide (line - 3 ≤ i ∧ i < line + 3)) := by
  rw [Bool.eq_iff_iff]
  simp only [List.contains_iff_exists_mem_beq, List.mem_flatMap, List.mem_range',
    List.any_eq_true, beq_iff_eq, decide_eq_true_eq]
  constructor
  · rintro ⟨x, ⟨line, hline, j, hj, hx⟩, hbeq⟩
    exact ⟨line, hline, by omega⟩
  · rintro ⟨line, hline, h1, h2⟩
    exact ⟨i, ⟨line, hline, i - (line - 3), by omega, by omega⟩, rfl⟩

/-- Eight distinctly named lines with an error reported on line 0. -/
def content8 : List Char := chars "l0\nl1\nl2\nlthree\nl4\nl5\nl6\nl7"

/-- C7, counterexample.  With an error on line 0, line index 3 lies
inside the claimed ±3-line window, and its text occurs in the source,
yet the rendered report does not contain it: the code's window is
`line-3 .. line+3` *exclusive* of the upper end, i.e. only two lines of
context after an error line. -/
theorem C7_counterexample :
    spec_in_context_window [0] 3 = true ∧
    occursIn (chars "lthree") content8 = true ∧
    (Validator.validate langBroken content8).map (occursIn (chars "lthree")) =
      some false := by
  refine ⟨by decide, by decide, by decide⟩

/-- C7, amended: when the syntax layer reports error lines, the report
consists of exactly the numbered source lines whose index `i` satisfies
`line - 3 ≤ i < line + 3` (a saturating half-open window: up to three
lines before and two after) for some error line, error lines carrying
the `->⎸` margin marker and context lines the plain `⎸` marker — and
the semantic/context layer is not consulted at all (the result is the
same as for the language with no validation query). -/
theorem C7_syntax_report_window (lang : LangModel) (content : List Char)
    (h : lang.collect_errors content ≠ []) :
    Validator.validate lang content = some (chars "===SYNTAX ERRORS===\n" ++
      (((linesOf content).enum.filter (fun p => (lang.collect_errors content).any
          (fun line => decide (line - 3 ≤ p.1 ∧ p.1 < line + 3)))).flatMap
        (fun p =>
          if (lang.collect_errors content).contains p.1 then
            padLeft4 (p.1 + 1) ++ chars " ->⎸" ++ p.2 ++ ['\n']
          else
            padLeft4 (p.1 + 1) ++ chars "   ⎸" ++ p.2 ++ ['\n']))) ∧
    Validator.validate lang content =
      Validator.validate
        { collect_errors := lang.collect_errors, validation_query := none } content := by
  cases herr : lang.collect_errors content with
  | nil => exact absurd herr h
  | cons a as =>
    constructor
    · rw [Validator_validate_cons lang content a as herr]
      have hfilter : ((linesOf content).enum.filter (fun p => ((a :: as).flatMap
            (fun line => List.range' (line - 3) ((line + 3) - (line - 3)))).contains p.1)) =
          ((linesOf content).enum.filter (fun p => (a :: as).any
            (fun line => decide (line - 3 ≤ p.1 ∧ p.1 < line + 3)))) :=
        List.filter_congr (fun x _ => contains_context_window (a :: as) x.1)
      rw [hfilter]
    · rw [Validator_validate_cons lang content a as herr,
        Validator_validate_cons
          { collect_errors := lang.collect_errors, validation_query := none }
          content a as herr]

/-! ## Claim C8 helpers -/

/-- Dropping a trailing newline from `a ++ b :: l` leaves the prefix
`a` intact. -/
theorem pop_append_cons_ex (a : List Char) (b : Char) (l : List Char) :
    ∃ rest, popTrailingNewline (a ++ b :: l) = a ++ rest := by
  unfold popTrailingNewline
  by_cases h : (a ++ b :: l).getLast? = some '\n'
  · rw [if_pos h, List.dropLast_append_cons]
    exact ⟨(b :: l).dropLast, rfl⟩
  · rw [if_neg h]
    exact ⟨b :: l, rfl⟩

/-- `DiffGenerator.generate_diff` with its `let`s inlined. -/
theorem generate_diff_eq (patch : List Hunk) (diff_lines : List (List Char))
    (content : List Char) :
    DiffGenerator.generate_diff patch diff_lines content =
      popTrailingNewline (
        (if (linesOf content).length > 10 then
          (chars "Edit efficiency: " ++
            chars (toString (DiffGenerator.calculate_changed_lines patch
              (linesOf content).length * 100 / (linesOf content).length)) ++
            chars "%\n") ++
          (if DiffGenerator.calculate_changed_lines patch (linesOf content).length * 100 /
              (linesOf content).length < 30 then
            chars "💡 TIP: For focused changes like this, you might try targeted insert/replace operations for easier review and iteration\n"
          else []) ++ ['\n']
        else []) ++
        (chars "===DIFF===\n" ++
          ((diff_lines.filter (fun line =>
            !((chars "---").isPrefixOf line || (chars "+++").isPrefixOf line ||
              (chars "@@").isPrefixOf line))).flatMap (fun line => line ++ ['\n'])))) := rfl

/-- C7, witness at the concrete broken source. -/
theorem C7_witness :
    Validator.validate langBroken content8 = some (chars "===SYNTAX ERRORS===\n" ++
      (((linesOf content8).enum.filter (fun p => (langBroken.collect_errors content8).any
          (fun line => decide (line - 3 ≤ p.1 ∧ p.1 < line + 3)))).flatMap
        (fun p =>
          if (langBroken.collect_errors content8).contains p.1 then
            padLeft4 (p.1 + 1) ++ chars " ->⎸" ++ p.2 ++ ['\n']
          else
            padLeft4 (p.1 + 1) ++ chars "   ⎸" ++ p.2 ++ ['\n']))) :=
  (C7_syntax_report_window langBroken content8 (by decide)).1

/-! ## Claim C8 -/

/-- C8: the `Edit efficiency: {pct}%` header opens the output exactly
when the content fragment has more than 10 lines, with
`pct = changed_lines * 100 / content_line_count` in integer division
and the advisory tip present exactly when `pct < 30`; for at most 10
lines the output starts directly at the `===DIFF===` marker; and
`changed_lines` counts the distinct original-side line numbers covered
by any hunk's old range, clipped to the content line count. -/
theorem C8_diff_efficiency (patch : List Hunk) (diff_lines : List (List Char))
    (content : List Char) :
    ((linesOf content).length > 10 →
      ∃ rest, DiffGenerator.generate_diff patch diff_lines content =
        chars "Edit efficiency: " ++
        chars (toString (DiffGenerator.calculate_changed_lines patch
          (linesOf content).length * 100 / (linesOf content).length)) ++
        chars "%\n" ++
        (if DiffGenerator.calculate_changed_lines patch (linesOf content).length * 100 /
            (linesOf content).length < 30 then
          chars "💡 TIP: For focused changes like this, you might try targeted insert/replace operations for easier review and iteration\n"
        else []) ++ chars "\n===DIFF===" ++ rest) ∧
    ((linesOf content).length ≤ 10 →
      ∃ rest, DiffGenerator.generate_diff patch diff_lines content =
        chars "===DIFF===" ++ rest) ∧
    (DiffGenerator.calculate_changed_lines patch (linesOf content).length =
      ((patch.flatMap (fun hk => List.range' hk.old_start hk.old_len)).filter
        (fun n => n < (linesOf content).length)).toFinset.card) ∧
    (∀ n, n ∈ ((patch.flatMap (fun hk => List.range' hk.old_start hk.old_len)).filter
        (fun n => n < (linesOf content).length)).toFinset ↔
      (n < (linesOf content).length ∧
        ∃ hk ∈ patch, hk.old_start ≤ n ∧ n < hk.old_start + hk.old_len)) := by
  refine ⟨?_, ?_, ?_, ?_⟩
  · intro h
    rw [generate_diff_eq, if_pos h]
    have hsplit : ((chars "Edit efficiency: " ++
          chars (toString (DiffGenerator.calculate_changed_lines patch
            (linesOf content).length * 100 / (linesOf content).length)) ++
          chars "%\n") ++
        (if DiffGenerator.calculate_changed_lines patch (linesOf content).length * 100 /
            (linesOf content).length < 30 then
          chars "💡 TIP: For focused changes like this, you might try targeted insert/replace operations for easier review and iteration\n"
        else []) ++ ['\n']) ++
        (chars "===DIFF===\n" ++
          ((diff_lines.filter (fun line =>
            !((chars "---").isPrefixOf line || (chars "+++").isPrefixOf line ||
              (chars "@@").isPrefixOf line))).flatMap (fun line => line ++ ['\n']))) =
        (((chars "Edit efficiency: " ++
          chars (toString (DiffGenerator.calculate_changed_lines patch
            (linesOf content).length * 100 / (linesOf content).length)) ++
          chars "%\n") ++
        (if DiffGenerator.calculate_changed_lines patch (linesOf content).length * 100 /
            (linesOf content).length < 30 then
          chars "💡 TIP: For focused changes like this, you might try targeted insert/replace operations for easier review and iteration\n"
        else []) ++ ['\n']) ++ chars "===DIFF===") ++
        ('\n' :: ((diff_lines.filter (fun line =>
            !((chars "---").isPrefixOf line || (chars "+++").isPrefixOf line ||
              (chars "@@").isPrefixOf line))).flatMap (fun line => line ++ ['\n']))) := by
      simp only [show chars "===DIFF===\n" = chars "===DIFF===" ++ ['\n'] from rfl,
        List.append_assoc, List.cons_append, List.nil_append]
    rw [hsplit]
    obtain ⟨rest, hr⟩ := pop_append_cons_ex _ '\n' _
    refine ⟨rest, ?_⟩
    rw [hr]
    simp only [show chars "\n===DIFF===" = '\n' :: chars "===DIFF===" from rfl,
      List.append_assoc, List.cons_append, List.nil_append]
  · intro h
    rw [generate_diff_eq, if_neg (by omega), List.nil_append]
    obtain ⟨rest, hr⟩ := pop_append_cons_ex (chars "===DIFF===") '\n' _
    exact ⟨rest, hr⟩
  · unfold DiffGenerator.calculate_changed_lines
    exact (List.card_toFinset _).symm
  · intro n
    simp only [List.mem_toFinset, List.mem_filter, List.mem_flatMap, List.mem_range',
      decide_eq_true_eq]
    constructor
    · rintro ⟨⟨hk, hhk, i, hi, hn⟩, hlt⟩
      exact ⟨hlt, hk, hhk, by omega, by omega⟩
    · rintro ⟨hlt, hk, hhk, h1, h2⟩
      exact ⟨⟨hk, hhk, n - hk.old_start, by omega, by omega⟩, hlt⟩

/-- 20 single-character lines. -/
def content20 : List Char :=
  chars "a\na\na\na\na\na\na\na\na\na\na\na\na\na\na\na\na\na\na\na"

/-- C8, witness: a 20-line content fragment whose diff touches exactly
the two original lines 0 and 1 reports 10% efficiency with the tip, and
a 1-line fragment gets no efficiency header. -/
theorem C8_witness :
    DiffGenerator.calculate_changed_lines
        [{ old_start := 0, old_len := 2 }] (linesOf content20).length = 2 ∧
    DiffGenerator.calculate_changed_lines
        [{ old_start := 0, old_len := 2 }] (linesOf content20).length * 100 /
      (linesOf content20).length = 10 ∧
    (∃ rest, DiffGenerator.generate_diff [{ old_start := 0, old_len := 2 }] [] content20 =
      chars "Edit efficiency: " ++
      chars (toString (DiffGenerator.calculate_changed_lines
        [{ old_start := 0, old_len := 2 }] (linesOf content20).length * 100 /
        (linesOf content20).length)) ++
      chars "%\n" ++
      (if DiffGenerator.calculate_changed_lines
          [{ old_start := 0, old_len := 2 }] (linesOf content20).length * 100 /
          (linesOf content20).length < 30 then
        chars "💡 TIP: For focused changes like this, you might try targeted insert/replace operations for easier review and iteration\n"
      else []) ++ chars "\n===DIFF===" ++ rest) ∧
    (∃ rest, DiffGenerator.generate_diff [{ old_start := 0, old_len := 2 }] [] (chars "a") =
      chars "===DIFF===" ++ rest) :=
  ⟨by decide, by decide,
    (C8_diff_efficiency [{ old_start := 0, old_len := 2 }] [] content20).1 (by decide),
    (C8_diff_efficiency [{ old_start := 0, old_len := 2 }] [] (chars "a")).2.1 (by decide)⟩

/-! ## Claim C9 -/

/-- A previously-valid staged operation: insert `"c"` after `"a"`. -/
def opC9 : StagedOperation :=
  { selector := { operation := .InsertAfter, anchor := chars "a", endText := none }
    content := chars "c"
    file_path := chars "f.txt"
    language_name := chars "plain"
    edit_position := none }

/-- A retarget selector whose anchor occurs nowhere in the file. -/
def selC9new : Selector :=
  { operation := .InsertAfter, anchor := chars "zz", endText := none }

/-- C9, counterexample.  Retargeting to an anchor that resolves nowhere
fails the re-preview, yet afterwards the session holds the staged
operation with the *new* selector: the snapshot is not left untouched
field for field. -/
theorem C9_counterexample :
    (RetargetStaged.execute langPlain tmNone diffyEmpty (chars "ab") (some opC9)
        selC9new).1 =
      .ok (chars "Anchor text \"zz\" not found in source") ∧
    (RetargetStaged.execute langPlain tmNone diffyEmpty (chars "ab") (some opC9)
        selC9new).2 =
      some (opC9.retarget selC9new) ∧
    opC9.retarget selC9new ≠ opC9 := by
  exact ⟨rfl, rfl, by decide⟩

/-- C9, amended: when the re-preview with the new selector fails, the
session keeps the staged operation with its content, file path,
language and resolved edit position unchanged — but with the selector
already replaced by the new one, because `retarget` mutates the stored
snapshot before previewing. -/
theorem C9_failed_retarget_keeps_mutated_selector (lang : LangModel) (tree : TreeModel)
    (diffy : DiffyModel) (source : List Char) (op : StagedOperation) (sel : Selector)
    (m : List Char)
    (h : Editor.preview lang tree diffy
      (Editor.from_staged_operation (op.retarget sel) source) = .ok (m, none)) :
    RetargetStaged.execute lang tree diffy source (some op) sel =
      (.ok m, some (op.retarget sel)) ∧
    (op.retarget sel).content = op.content ∧
    (op.retarget sel).file_path = op.file_path ∧
    (op.retarget sel).language_name = op.language_name ∧
    (op.retarget sel).edit_position = op.edit_position ∧
    (op.retarget sel).selector = sel := by
  refine ⟨?_, rfl, rfl, rfl, rfl, rfl⟩
  show (match Editor.preview lang tree diffy
      (Editor.from_staged_operation (op.retarget sel) source) with
    | .error e => ((.error e : Except SemanticEditError (List Char)), some (op.retarget sel))
    | .ok (message, some staged) => (.ok message, some staged)
    | .ok (message, none) => (.ok message, some (op.retarget sel))) =
    (.ok m, some (op.retarget sel))
  rw [h]

/-- C9, witness at the concrete failed retarget. -/
theorem C9_witness :
    RetargetStaged.execute langPlain tmNone diffyEmpty (chars "ab") (some opC9) selC9new =
      (.ok (chars "Anchor text \"zz\" not found in source"),
        some (opC9.retarget selC9new)) ∧
    (opC9.retarget selC9new).content = opC9.content ∧
    (opC9.retarget selC9new).file_path = opC9.file_path ∧
    (opC9.retarget selC9new).language_name = opC9.language_name ∧
    (opC9.retarget selC9new).edit_position = opC9.edit_position ∧
    (opC9.retarget selC9new).selector = selC9new :=
  C9_failed_retarget_keeps_mutated_selector langPlain tmNone diffyEmpty (chars "ab")
    opC9 selC9new (chars "Anchor text \"zz\" not found in source") rfl

/-! ## Claim C10 -/

/-- Byte offset 0 is always a character boundary. -/
theorem isCharBoundary_zero (s : List Char) : isCharBoundary s 0 = true := by
  cases s with
  | nil => rfl
  | cons c rest => rfl

/-- The total byte length is always a character boundary. -/
theorem isCharBoundary_utf8Len (s : List Char) : isCharBoundary s (utf8Len s) = true := by
  induction s with
  | nil => rfl
  | cons c rest ih =>
    have hlen : utf8Len (c :: rest) = c.utf8Size + utf8Len rest := by
      simp [utf8Len]
    rw [hlen]
    show (decide (c.utf8Size + utf8Len rest = 0) ||
      (decide (c.utf8Size ≤ c.utf8Size + utf8Len rest) &&
        isCharBoundary rest (c.utf8Size + utf8Len rest - c.utf8Size))) = true
    rw [show c.utf8Size + utf8Len rest - c.utf8Size = utf8Len rest from by omega, ih]
    simp

/-- The backward boundary search never moves forward. -/
theorem searchBack_le (s : List Char) : ∀ p, searchBoundaryBack s p ≤ p := by
  intro p
  induction p with
  | zero => exact Nat.le_refl 0
  | succ q ih =>
    unfold searchBoundaryBack
    by_cases h : isCharBoundary s (q + 1) = true
    · rw [if_pos h]
    · rw [if_neg h]
      omega

/-- The backward boundary search lands on a character boundary. -/
theorem searchBack_boundary (s : List Char) :
    ∀ p, isCharBoundary s (searchBoundaryBack s p) = true := by
  intro p
  induction p with
  | zero => exact isCharBoundary_zero s
  | succ q ih =>
    unfold searchBoundaryBack
    by_cases h : isCharBoundary s (q + 1) = true
    · rw [if_pos h]
      exact h
    · rw [if_neg h]
      exact ih

/-- With fuel reaching the end of the text, the forward boundary search
never moves backward and lands on a character boundary (at worst the
total length). -/
theorem searchFwd_spec (s : List Char) :
    ∀ fuel p, p + fuel = utf8Len s →
      p ≤ searchBoundaryFwd s fuel p ∧
      isCharBoundary s (searchBoundaryFwd s fuel p) = true := by
  intro fuel
  induction fuel with
  | zero =>
    intro p hp
    refine ⟨Nat.le_refl p, ?_⟩
    unfold searchBoundaryFwd
    rw [show p = utf8Len s from by omega]
    exact isCharBoundary_utf8Len s
  | succ f ih =>
    intro p hp
    unfold searchBoundaryFwd
    by_cases hc : (decide (p < utf8Len s) && !isCharBoundary s p) = true
    · rw [if_pos hc]
      obtain ⟨h1, h2⟩ := ih (p + 1) (by omega)
      exact ⟨by omega, h2⟩
    · rw [if_neg hc]
      simp only [Bool.and_eq_true, decide_eq_true_eq, Bool.not_eq_true',
        not_and, Bool.not_eq_false] at hc
      by_cases hlt : p < utf8Len s
      · exact ⟨Nat.le_refl p, hc hlt⟩
      · omega

/-- `str::get` succeeds on ordered character boundaries. -/
theorem strGet_some (s : List Char) (st en : Nat)
    (h1 : isCharBoundary s st = true) (h2 : isCharBoundary s en = true) (h3 : st ≤ en) :
    strGet s st en = some (takeBytes (dropBytes s st) (en - st)) := by
  unfold strGet
  rw [if_pos (by simp [h1, h2, h3])]

/-- C10, counterexample.  For a range whose end exceeds the source
length, the code does not widen the offsets to the nearest boundary —
the claim's widening would slice the whole source — but substitutes the
fixed `<range out of bounds>` placeholder. -/
theorem C10_counterexample :
    snippetFor (chars "ab") 0 5 = chars "<range out of bounds>" ∧
    spec_widened_slice (chars "ab") 0 5 = some (chars "ab") ∧
    chars "<range out of bounds>" ≠ chars "ab" := by
  refine ⟨rfl, rfl, by decide⟩

/-- C10, amended: for every violating range with `start ≤ end`, the
snippet extraction is total and boundary-safe — when the end lies
within the source it returns a slice between two valid character
boundaries obtained by widening outward (start backward, end forward),
never the internal `<invalid UTF-8 range>` fallback; when the end
exceeds the source length it returns the fixed
`<range out of bounds>` placeholder instead of widening. -/
theorem C10_snippet_boundary_safety (source : List Char) (s e : Nat) (hse : s ≤ e) :
    (e ≤ utf8Len source →
      ∃ slice st en, isCharBoundary source st = true ∧ isCharBoundary source en = true ∧
        st ≤ s ∧ e ≤ en ∧ strGet source st en = some slice ∧
        snippetFor source s e = slice) ∧
    (utf8Len source < e →
      snippetFor source s e = chars "<range out of bounds>") := by
  constructor
  · intro he
    cases hget : strGet source s e with
    | some slice =>
      refine ⟨slice, s, e, ?_, ?_, Nat.le_refl s, Nat.le_refl e, hget, ?_⟩
      · unfold strGet at hget
        by_cases hcond : (isCharBoundary source s && isCharBoundary source e &&
            decide (s ≤ e)) = true
        · simp only [Bool.and_eq_true] at hcond
          exact hcond.1.1
        · rw [if_neg hcond] at hget
          cases hget
      · unfold strGet at hget
        by_cases hcond : (isCharBoundary source s && isCharBoundary source e &&
            decide (s ≤ e)) = true
        · simp only [Bool.and_eq_true] at hcond
          exact hcond.1.2
        · rw [if_neg hcond] at hget
          cases hget
      · unfold snippetFor
        rw [if_pos he, hget]
    | none =>
      have hmin_s : min s (utf8Len source) = s := Nat.min_eq_left (by omega)
      have hmin_e : min e (utf8Len source) = e := Nat.min_eq_left he
      have hback := searchBack_boundary source (min s (utf8Len source))
      have hback_le := searchBack_le source (min s (utf8Len source))
      have hfwd := searchFwd_spec source
        (utf8Len source - min e (utf8Len source)) (min e (utf8Len source)) (by omega)
      have hstle : searchBoundaryBack source (min s (utf8Len source)) ≤
          searchBoundaryFwd source (utf8Len source - min e (utf8Len source))
            (min e (utf8Len source)) := by
        have h1 : searchBoundaryBack source (min s (utf8Len source)) ≤ s := by omega
        have h2 : e ≤ searchBoundaryFwd source
            (utf8Len source - min e (utf8Len source)) (min e (utf8Len source)) := by
          have := hfwd.1
          omega
        omega
      refine ⟨_, searchBoundaryBack source (min s (utf8Len source)),
        searchBoundaryFwd source (utf8Len source - min e (utf8Len source))
          (min e (utf8Len source)),
        hback, hfwd.2, by omega, by have := hfwd.1; omega,
        strGet_some source _ _ hback hfwd.2 hstle, ?_⟩
      unfold snippetFor
      rw [if_pos he, hget]
      show (strGet source (find_utf8_boundary source s true)
        (find_utf8_boundary source (min e (utf8Len source)) false)).getD
          (chars "<invalid UTF-8 range>") = _
      unfold find_utf8_boundary
      rw [if_pos rfl, if_neg (by simp)]
      rw [show min (min e (utf8Len source)) (utf8Len source) = min e (utf8Len source) from
        Nat.min_eq_left (Nat.min_le_right _ _)]
      rw [strGet_some source _ _ hback hfwd.2 hstle]
      rfl
  · intro he
    unfold snippetFor
    rw [if_neg (by omega)]

/-- C10, witness: a multi-byte source `"aé"` with a range ending inside
the two-byte character is widened outward to the whole string, and an
over-long range on `"ab"` yields the placeholder. -/
theorem C10_witness :
    (∃ slice st en, isCharBoundary (chars "aé") st = true ∧
      isCharBoundary (chars "aé") en = true ∧
      st ≤ 0 ∧ 2 ≤ en ∧ strGet (chars "aé") st en = some slice ∧
      snippetFor (chars "aé") 0 2 = slice) ∧
    snippetFor (chars "ab") 0 5 = chars "<range out of bounds>" :=
  ⟨(C10_snippet_boundary_safety (chars "aé") 0 2 (by omega)).1 (by decide),
    (C10_snippet_boundary_safety (chars "ab") 0 5 (by omega)).2 (by decide)⟩

end SemanticEdit
